import Mathlib

/-!
Shallow embedding of the append/prepend value-mutation core of the storage
engine: the btree_append_prepend_oper_t::operate algorithm
(src/btree/append_prepend.cc), the buffer-group data-transfer contract
(src/data_provider.hpp) and the value-backed data providers
(src/btree/btree_data_provider.cc).

Machine memory is modelled as lists of natural numbers (one per byte).
The size thresholds MAX_IN_NODE_VALUE_SIZE (the inline threshold, called
MAX_INLINE_SIZE in the spec) and MAX_VALUE_SIZE, and the segment size fixed
by the storage layer's block size, are parameters of every definition.
-/

/-- Overwrite the bytes of a memory region: write the bytes of data into mem
starting at offset off, leaving the rest untouched (in-range usage only). -/
def writeList (mem : List Nat) (off : Nat) (data : List Nat) : List Nat :=
  mem.take off ++ data ++ mem.drop (off + data.length)

/-- The C memmove call used by the small-to-small prepend path: copy n bytes
from offset src to offset dst inside mem, as if through a temporary. -/
def memmove (mem : List Nat) (dst src n : Nat) : List Nat :=
  writeList mem dst ((mem.drop src).take n)

/-- One span of a scatter/gather destination (buffer_group_t::buffer_t,
src/data_provider.hpp lines 11-14).  A span points either into the
operation's inline working copy of the value (node off len) or into segment
ix of a large buffer starting at in-segment offset sp (seg ix sp len). -/
inductive buf_span where
  | node (off len : Nat)
  | seg (ix sp len : Nat)
deriving DecidableEq, Repr

/-- Length of one span. -/
def span_len : buf_span → Nat
  | .node _ len => len
  | .seg _ _ len => len

/-- buffer_group_t::get_size (src/data_provider.hpp lines 22-28): the sum of
the span lengths of a buffer group. -/
def buffer_group_get_size : List buf_span → Nat
  | [] => 0
  | b :: rest => span_len b + buffer_group_get_size rest

/-- A data provider (data_provider_t, src/data_provider.hpp): a one-shot
byte source with a declared size.  bytes is the data it delivers when
get_data_into_buffers succeeds; failure = some junk models a provider that
throws data_provider_failed_exc_t during the fill after having written the
bytes of junk into the destination spans (the source makes no guarantee
about how many destination bytes were written before the failure). -/
structure data_provider_t where
  bytes : List Nat
  failure : Option (List Nat)
deriving DecidableEq, Repr

/-- data_provider_t::get_size: the declared byte count. -/
def data_provider_t.get_size (dp : data_provider_t) : Nat := dp.bytes.length

/-- Modelled from the spec: large_buf_t (the segmented large-value buffer of
large_buf.hpp/cc, which is not under src/; only its callers are).  Per spec
section 3, a large buffer is an out-of-line byte sequence divided into
fixed-capacity segments; byte offset p lives in segment
(offset + p) / segSize at in-segment position (offset + p) % segSize, where
offset is the mapping origin inside the first segment; prepends that are
not segment-aligned shift the mapping origin instead of moving bytes. -/
structure large_buf_t where
  offset : Nat
  bytes : List Nat
deriving DecidableEq, Repr

/-- Total logical byte length of a large buffer. -/
def large_buf_t.size (lb : large_buf_t) : Nat := lb.bytes.length

/-- Modelled from the spec: large_buf_t::allocate — a freshly allocated
large buffer of the given size, mapping origin 0, contents unspecified
(taken to be zero bytes). -/
def large_buf_t.allocate (sz : Nat) : large_buf_t :=
  ⟨0, List.replicate sz 0⟩

/-- Modelled from the spec: large_buf_t::fill_at — overwrite the bytes at
logical position pos with data. -/
def large_buf_t.fill_at (lb : large_buf_t) (pos : Nat) (data : List Nat) :
    large_buf_t :=
  ⟨lb.offset, writeList lb.bytes pos data⟩

/-- Modelled from the spec: large_buf_t::append — logically grow the buffer
by delta bytes at the tail; existing segments and the mapping origin are
preserved, only new capacity is added. -/
def large_buf_t.append (lb : large_buf_t) (delta : Nat) : large_buf_t :=
  ⟨lb.offset, lb.bytes ++ List.replicate delta 0⟩

/-- Modelled from the spec: large_buf_t::prepend — logically grow the buffer
by delta bytes at the head.  Existing segment payloads are not copied: the
mapping origin is shifted so that every old byte keeps its in-segment
position (new whole segments appear in front when needed). -/
def large_buf_t.prepend (lb : large_buf_t) (s delta : Nat) : large_buf_t :=
  ⟨(lb.offset + (s - delta % s)) % s, List.replicate delta 0 ++ lb.bytes⟩

/-- Modelled from the spec: large_buf_t::unappend — shrink the buffer back
by delta bytes at the tail, exactly reversing an append of delta. -/
def large_buf_t.unappend (lb : large_buf_t) (delta : Nat) : large_buf_t :=
  ⟨lb.offset, lb.bytes.take (lb.bytes.length - delta)⟩

/-- Modelled from the spec: large_buf_t::unprepend — shrink the buffer back
by delta bytes at the head, exactly reversing a prepend of delta (the
mapping origin shifts back). -/
def large_buf_t.unprepend (lb : large_buf_t) (s delta : Nat) : large_buf_t :=
  ⟨(lb.offset + delta) % s, lb.bytes.drop delta⟩

/-- A stored value (btree_value, whose definition lives in node.hpp outside
src/): either small, with its bytes inline in the node, or large, holding a
reference to a segmented large buffer (modelled by the buffer itself, which
the value exclusively owns). -/
inductive btree_value where
  | small (bytes : List Nat)
  | large (buf : large_buf_t)
deriving DecidableEq, Repr

/-- btree_value::value_size — the logical byte length of the value. -/
def btree_value.value_size : btree_value → Nat
  | .small b => b.length
  | .large lb => lb.size

/-- btree_value::is_large — the representation tag. -/
def btree_value.is_large : btree_value → Bool
  | .small _ => false
  | .large _ => true

/-- The full byte sequence a value represents. -/
def btree_value.value_bytes : btree_value → List Nat
  | .small b => b
  | .large lb => lb.bytes

/-- The mapping origin of a value's large buffer (0 for a small value). -/
def btree_value.value_offset : btree_value → Nat
  | .small _ => 0
  | .large lb => lb.offset

/-- Well-formedness of a stored value for thresholds mi (inline threshold)
and segment size s: a small value fits inline, a large value exceeds the
inline threshold (spec section 3 representation invariant) and its mapping
origin lies inside the first segment. -/
def value_wf (mi s : Nat) (v : btree_value) : Prop :=
  (v.is_large = false → v.value_size ≤ mi) ∧
  (v.is_large = true → mi < v.value_size ∧ v.value_offset < s)

instance value_wf_decidable (mi s : Nat) (v : btree_value) :
    Decidable (value_wf mi s v) := by
  unfold value_wf
  infer_instance

/-- Modelled from the spec: the segment length returned by
large_buf_t::get_segment_write for a buffer with mapping origin o and
logical size sz — the last segment holds bytes only up to the end of the
buffer, every other segment is full. -/
def lb_seg_len (o sz s ix : Nat) : Nat :=
  if ix = (o + sz - 1) / s then (o + sz - 1) % s + 1 else s

/-- The span-construction loop of operate (src/btree/append_prepend.cc lines
84-94): starting at segment ix, in-segment position sp, emit one span per
segment until fill bytes are covered.  The fuel argument bounds the number
of iterations; it is always called with fuel = fill, which suffices because
every iteration in range covers at least one byte. -/
def mk_spans_go (o sz s : Nat) : Nat → Nat → Nat → Nat → List buf_span
  | 0, _, _, _ => []
  | fuel+1, ix, sp, fill =>
    if fill = 0 then []
    else
      .seg ix sp (min (lb_seg_len o sz s ix - sp) fill) ::
        mk_spans_go o sz s fuel (ix+1) 0
          (fill - min (lb_seg_len o sz s ix - sp) fill)

/-- The buffer group built by the while loop at src/btree/append_prepend.cc
lines 81-94 for a large destination buffer. -/
def mk_spans (o sz s ix sp fill : Nat) : List buf_span :=
  mk_spans_go o sz s fill ix sp fill

/-- The large buffer prepared by operate for a large destination
(src/btree/append_prepend.cc lines 52-74): small-to-large allocates a fresh
buffer of the new size and copies the old inline bytes to offset 0 (append)
or delta (prepend); large-to-large extends the existing buffer by delta on
the requested end. -/
def prepared_lb (s : Nat) (ov : btree_value) (delta : Nat) (ap : Bool) :
    large_buf_t :=
  match ov with
  | .small ob =>
    let lb0 := large_buf_t.allocate (ob.length + delta)
    if ap then lb0.fill_at 0 ob else lb0.fill_at delta ob
  | .large olb =>
    if ap then olb.append delta else olb.prepend s delta

/-- The destination buffer group operate hands to the data provider
(src/btree/append_prepend.cc lines 41-94): for a small destination a single
span into the inline working copy (past the old bytes for append, at the
vacated front for prepend); for a large destination the spans produced by
walking the segment mapping of the prepared buffer from the start of the
newly reserved range. -/
def dest_group (mi s : Nat) (ov : btree_value) (delta : Nat) (ap : Bool) :
    List buf_span :=
  if ov.value_size + delta ≤ mi then
    if ap then [.node ov.value_size delta] else [.node 0 delta]
  else
    let lb1 := prepared_lb s ov delta ap
    let start := if ap then ov.value_size else 0
    mk_spans lb1.offset lb1.size s ((lb1.offset + start) / s)
      ((lb1.offset + start) % s) delta

/-- Deliver data into the node-local spans of a buffer group, consuming the
data sequentially span by span (data_provider_t::get_data_into_buffers
writing into the inline working copy). -/
def fill_mem (mem : List Nat) : List buf_span → List Nat → List Nat
  | [], _ => mem
  | .node off len :: rest, data =>
    fill_mem (writeList mem off (data.take len)) rest (data.drop len)
  | .seg _ _ len :: rest, data => fill_mem mem rest (data.drop len)

/-- Deliver data into the segment spans of a buffer group, consuming the
data sequentially span by span (data_provider_t::get_data_into_buffers
writing into a large buffer through the segment mapping). -/
def lb_fill (s : Nat) (lb : large_buf_t) :
    List buf_span → List Nat → large_buf_t
  | [], _ => lb
  | .seg ix sp len :: rest, data =>
    lb_fill s ⟨lb.offset, writeList lb.bytes (ix * s + sp - lb.offset)
      (data.take len)⟩ rest (data.drop len)
  | .node _ len :: rest, data => lb_fill s lb rest (data.drop len)

/-- What operate left behind when the provider failed
(src/btree/append_prepend.cc lines 102-127): nothing was prepared
(small destination), the old value's large buffer was shrunk back and is in
the given state (large-to-large), or the freshly allocated large buffer in
the given state was marked deleted (small-to-large). -/
inductive rollback_info where
  | nonePrepared
  | shrunk (lb : large_buf_t)
  | deleted (lb : large_buf_t)
deriving DecidableEq, Repr

/-- Outcome of one run of btree_append_prepend_oper_t::operate.
assertFailed marks a violation of the rassert at line 42 (the old value was
large although the new total size fits inline), which aborts the process in
the source. -/
inductive op_result where
  | notFound
  | tooLarge
  | assertFailed
  | success (nv : btree_value)
  | providerFailed (rb : rollback_info)
deriving DecidableEq, Repr

/-- btree_append_prepend_oper_t::operate (src/btree/append_prepend.cc lines
11-138), for thresholds mi = MAX_IN_NODE_VALUE_SIZE, mv = MAX_VALUE_SIZE
and segment size s: load check, size check, transition-class dispatch,
destination preparation, provider fill, and rollback on provider failure. -/
def operate (mi mv s : Nat) (old : Option btree_value)
    (dp : data_provider_t) (ap : Bool) : op_result :=
  match old with
  | none => .notFound
  | some ov =>
    let delta := dp.get_size
    let new_size := ov.value_size + delta
    if mv < new_size then .tooLarge
    else if new_size ≤ mi then
      match ov with
      | .large _ => .assertFailed
      | .small ob =>
        let g := dest_group mi s (.small ob) delta ap
        let mem0 := ob ++ List.replicate delta 0
        let mem1 := if ap then mem0 else memmove mem0 delta 0 ob.length
        match dp.failure with
        | some _ => .providerFailed .nonePrepared
        | none => .success (.small (fill_mem mem1 g dp.bytes))
    else
      let lb1 := prepared_lb s ov delta ap
      let g := dest_group mi s ov delta ap
      match dp.failure with
      | some junk =>
        let lb2 := lb_fill s lb1 g junk
        match ov with
        | .small _ => .providerFailed (.deleted lb2)
        | .large _ =>
          let lb3 := if ap then lb2.unappend delta else lb2.unprepend s delta
          .providerFailed (.shrunk lb3)
      | none => .success (.large (lb_fill s lb1 g dp.bytes))

/-- The value stored under the key after the whole modify operation: the new
value on success; otherwise the old value, whose large buffer — the one
object operate mutated in place in the large-to-large case — is in the
state the rollback left it. -/
def stored_after (old : Option btree_value) : op_result → Option btree_value
  | .success nv => some nv
  | .providerFailed (.shrunk lb) =>
    match old with
    | some (.large _) => some (.large lb)
    | o => o
  | _ => old

/-- The result enum reported to the caller (append_prepend_result_t). -/
inductive append_prepend_result_t where
  | apr_success
  | apr_not_found
  | apr_too_large
  | apr_data_provider_failed
deriving DecidableEq, Repr

/-- The result field operate sets on each path; none models the process
abort of a failed rassert. -/
def result_of : op_result → Option append_prepend_result_t
  | .notFound => some .apr_not_found
  | .tooLarge => some .apr_too_large
  | .assertFailed => none
  | .success _ => some .apr_success
  | .providerFailed _ => some .apr_data_provider_failed

/-- btree_append_prepend (src/btree/append_prepend.cc lines 162-166): run
the modify operation and report oper.result. -/
def btree_append_prepend (mi mv s : Nat) (old : Option btree_value)
    (dp : data_provider_t) (ap : Bool) : Option append_prepend_result_t :=
  result_of (operate mi mv s old dp ap)

/-- Which end of the large-value structure a lock request names. -/
inductive lock_end where
  | lhs
  | rhs
deriving DecidableEq, Repr

/-- The access mode of a lock request (rwi_read / rwi_write). -/
inductive access_mode where
  | rwi_read
  | rwi_write
deriving DecidableEq, Repr

/-- btree_append_prepend_oper_t::actually_acquire_large_value
(src/btree/append_prepend.cc lines 140-146): which end of the large value
is acquired, and in which mode, as a function of the direction flag. -/
def actually_acquire_large_value (ap : Bool) : lock_end × access_mode :=
  if ap then (.rhs, .rwi_write) else (.lhs, .rwi_write)

/-- A value-backed data provider (src/btree/btree_data_provider.cc): the
small variant owns a copy of the value's bytes taken at construction
(small_value_data_provider_t's constructor does value.assign of the byte
range); the large variant owns a copy of the value's large-buffer reference,
whose size field is the value's logical byte length. -/
inductive value_data_provider_t where
  | smallP (contents : List Nat)
  | largeP (lb_ref_size : Nat)
deriving DecidableEq, Repr

/-- value_data_provider_t::create (src/btree/btree_data_provider.cc lines
49-56): a large-value provider exactly when the value is large. -/
def value_data_provider_t.create (v : btree_value) : value_data_provider_t :=
  match v with
  | .large lb => .largeP lb.size
  | .small b => .smallP b

/-- Whether the factory built the large-value variant. -/
def value_data_provider_t.is_large_provider : value_data_provider_t → Bool
  | .smallP _ => false
  | .largeP _ => true

/-- get_size of either variant (src/btree/btree_data_provider.cc lines
14-16 and 31-33): the copied byte count, resp. the copied reference's size
field. -/
def value_data_provider_t.get_size : value_data_provider_t → Nat
  | .smallP c => c.length
  | .largeP n => n

/-- small_value_data_provider_t::get_data_as_buffers
(src/btree/btree_data_provider.cc lines 18-24): one buffer of get_size
bytes pointing at the copy taken at construction.  The large variant's
buffers come from acquiring the large buffer and are not modelled here. -/
def small_value_as_buffers : value_data_provider_t → List (List Nat)
  | .smallP c => [c]
  | .largeP _ => []

/-! ## Basic facts about writeList -/

theorem writeList_nil (m : List Nat) (off : Nat) : writeList m off [] = m := by
  simp [writeList]

theorem length_writeList (m : List Nat) (off : Nat) (d : List Nat)
    (h : off + d.length ≤ m.length) :
    (writeList m off d).length = m.length := by
  simp only [writeList, List.length_append, List.length_take, List.length_drop]
  omega

theorem writeList_after (xs Y data : List Nat) (h : data.length = Y.length) :
    writeList (xs ++ Y) xs.length data = xs ++ data := by
  have h1 : List.take xs.length (xs ++ Y) = xs := List.take_left xs Y
  have h2 : List.drop (xs.length + data.length) (xs ++ Y) = List.drop data.length Y :=
    List.drop_append data.length
  have h3 : List.drop data.length Y = [] := List.drop_of_length_le (le_of_eq h.symm)
  simp [writeList, h1, h2, h3]

theorem writeList_front (X xs data : List Nat) (h : data.length = X.length) :
    writeList (X ++ xs) 0 data = data ++ xs := by
  have h2 : List.drop data.length (X ++ xs) = xs := List.drop_left' h.symm
  simp [writeList, h2]

theorem writeList_writeList (m : List Nat) (off : Nat) (d1 d2 : List Nat)
    (h : off ≤ m.length) :
    writeList (writeList m off d1) (off + d1.length) d2 =
      writeList m off (d1 ++ d2) := by
  have hlen : (List.take off m ++ d1).length = off + d1.length := by
    simp [List.length_take]; omega
  unfold writeList
  rw [List.take_left' hlen]
  have hd : off + d1.length + d2.length =
      (List.take off m ++ d1).length + d2.length := by rw [hlen]
  rw [hd, List.drop_append, List.drop_drop]
  simp [List.append_assoc, Nat.add_assoc]

/-! ## The span-construction loop writes the newly reserved range -/

theorem mk_spans_go_zero (o sz s fuel ix sp : Nat) :
    mk_spans_go o sz s fuel ix sp 0 = [] := by
  cases fuel <;> simp [mk_spans_go]

theorem mk_spans_go_write (s : Nat) (hs : 0 < s) (o sz : Nat) :
    ∀ (fuel fill pos : Nat) (bytes data : List Nat),
      bytes.length = sz → pos + fill ≤ sz → fill ≤ fuel →
      lb_fill s ⟨o, bytes⟩
        (mk_spans_go o sz s fuel ((o + pos) / s) ((o + pos) % s) fill) data
        = ⟨o, writeList bytes pos (data.take fill)⟩ := by
  intro fuel
  induction fuel with
  | zero =>
    intro fill pos bytes data hb hpf hf
    have h0 : fill = 0 := by omega
    subst h0
    simp [mk_spans_go, lb_fill, writeList_nil]
  | succ F ih =>
    intro fill pos bytes data hb hpf hf
    by_cases h0 : fill = 0
    · subst h0
      simp [mk_spans_go, lb_fill, writeList_nil]
    · have hfill1 : 1 ≤ fill := Nat.one_le_iff_ne_zero.mpr h0
      have hE1 := Nat.div_add_mod (o + pos) s
      have hsp_lt : (o + pos) % s < s := Nat.mod_lt _ hs
      simp only [mk_spans_go, if_neg h0]
      set SL := lb_seg_len o sz s ((o + pos) / s) with hSL
      set B := min (SL - (o + pos) % s) fill with hB
      have hpos_eq : ((o + pos) / s) * s + (o + pos) % s - o = pos := by
        have : ((o + pos) / s) * s = s * ((o + pos) / s) := Nat.mul_comm _ _
        omega
      simp only [lb_fill, hpos_eq]
      by_cases hcase : SL - (o + pos) % s < fill
      · -- the span fills the current segment to its end; recurse
        have hix_ne : (o + pos) / s ≠ (o + sz - 1) / s := by
          intro hix
          have hE2 := Nat.div_add_mod (o + sz - 1) s
          rw [← hix] at hE2
          have hR_lt : (o + sz - 1) % s < s := Nat.mod_lt _ hs
          rw [hSL, lb_seg_len, if_pos hix] at hcase
          omega
        have hSLs : SL = s := by rw [hSL, lb_seg_len, if_neg hix_ne]
        have hBval : B = s - (o + pos) % s := by
          rw [hB, hSLs]; omega
        have hBpos : 0 < B := by omega
        have hnext : o + (pos + B) = s * ((o + pos) / s + 1) := by
          rw [Nat.mul_succ, hBval]; omega
        have hdiv : (o + (pos + B)) / s = (o + pos) / s + 1 := by
          rw [hnext]; exact Nat.mul_div_cancel_left _ hs
        have hmod : (o + (pos + B)) % s = 0 := by
          rw [hnext]; exact Nat.mul_mod_right s _
        have hlen_take : pos + (data.take B).length ≤ bytes.length := by
          have := List.length_take B data
          simp only [List.length_take] at *
          omega
        have hrec := ih (fill - B) (pos + B)
          (writeList bytes pos (data.take B)) (data.drop B)
          (by rw [length_writeList _ _ _ hlen_take, hb])
          (by omega) (by omega)
        rw [hdiv, hmod] at hrec
        rw [hrec]
        by_cases hdl : B ≤ data.length
        · have htakeB : (data.take B).length = B := by
            simp [List.length_take]; omega
          have hcomp := writeList_writeList bytes pos (data.take B)
            ((data.drop B).take (fill - B)) (by omega)
          rw [htakeB] at hcomp
          rw [hcomp]
          have : data.take B ++ (data.drop B).take (fill - B)
              = data.take fill := by
            rw [← List.take_add]
            congr 1
            omega
          rw [this]
        · have hdata : data.take B = data := List.take_of_length_le (by omega)
          have hdrop : data.drop B = [] := List.drop_of_length_le (by omega)
          have hdata2 : data.take fill = data := List.take_of_length_le (by omega)
          rw [hdrop]
          simp [writeList_nil, hdata, hdata2]
      · -- the whole remaining fill fits into the current segment
        have hBval : B = fill := by rw [hB]; omega
        have hzero : fill - B = 0 := by omega
        rw [hzero, mk_spans_go_zero]
        simp [lb_fill, hBval]

/-! ## Geometry of the destination buffer group -/

/-- The segment index a span names (0 for a node-local span). -/
def span_ix : buf_span → Nat
  | .node _ _ => 0
  | .seg ix _ _ => ix

/-- The logical byte positions a span covers, for a large buffer with
mapping origin o and segment size s: segment ix at in-segment position sp
holds logical byte ix * s + sp - o. -/
def span_positions (o s : Nat) : buf_span → List Nat
  | .node off len => List.range' off len
  | .seg ix sp len => List.range' (ix * s + sp - o) len

/-- All logical byte positions a buffer group covers, in delivery order. -/
def group_positions (o s : Nat) : List buf_span → List Nat
  | [] => []
  | b :: rest => span_positions o s b ++ group_positions o s rest

/-- The segment indices named by a buffer group, in order. -/
def group_ixs : List buf_span → List Nat
  | [] => []
  | b :: rest => span_ix b :: group_ixs rest

theorem mk_spans_go_spec (s : Nat) (hs : 0 < s) (o sz : Nat) :
    ∀ (fuel fill pos : Nat),
      pos + fill ≤ sz → fill ≤ fuel →
      buffer_group_get_size
          (mk_spans_go o sz s fuel ((o + pos) / s) ((o + pos) % s) fill)
        = fill ∧
      group_positions o s
          (mk_spans_go o sz s fuel ((o + pos) / s) ((o + pos) % s) fill)
        = List.range' pos fill ∧
      group_ixs (mk_spans_go o sz s fuel ((o + pos) / s) ((o + pos) % s) fill)
        = List.range' ((o + pos) / s)
            (mk_spans_go o sz s fuel ((o + pos) / s) ((o + pos) % s)
              fill).length := by
  intro fuel
  induction fuel with
  | zero =>
    intro fill pos hpf hf
    have h0 : fill = 0 := by omega
    subst h0
    simp [mk_spans_go, buffer_group_get_size, group_positions, group_ixs]
  | succ F ih =>
    intro fill pos hpf hf
    by_cases h0 : fill = 0
    · subst h0
      simp [mk_spans_go, buffer_group_get_size, group_positions, group_ixs]
    · have hfill1 : 1 ≤ fill := Nat.one_le_iff_ne_zero.mpr h0
      have hE1 := Nat.div_add_mod (o + pos) s
      have hsp_lt : (o + pos) % s < s := Nat.mod_lt _ hs
      simp only [mk_spans_go, if_neg h0]
      set SL := lb_seg_len o sz s ((o + pos) / s) with hSL
      set B := min (SL - (o + pos) % s) fill with hB
      have hpos_eq : ((o + pos) / s) * s + (o + pos) % s - o = pos := by
        have : ((o + pos) / s) * s = s * ((o + pos) / s) := Nat.mul_comm _ _
        omega
      by_cases hcase : SL - (o + pos) % s < fill
      · have hix_ne : (o + pos) / s ≠ (o + sz - 1) / s := by
          intro hix
          have hE2 := Nat.div_add_mod (o + sz - 1) s
          rw [← hix] at hE2
          have hR_lt : (o + sz - 1) % s < s := Nat.mod_lt _ hs
          rw [hSL, lb_seg_len, if_pos hix] at hcase
          omega
        have hSLs : SL = s := by rw [hSL, lb_seg_len, if_neg hix_ne]
        have hBval : B = s - (o + pos) % s := by
          rw [hB, hSLs]; omega
        have hBpos : 0 < B := by omega
        have hBle : B ≤ fill := by rw [hB]; omega
        have hnext : o + (pos + B) = s * ((o + pos) / s + 1) := by
          rw [Nat.mul_succ, hBval]; omega
        have hdiv : (o + (pos + B)) / s = (o + pos) / s + 1 := by
          rw [hnext]; exact Nat.mul_div_cancel_left _ hs
        have hmod : (o + (pos + B)) % s = 0 := by
          rw [hnext]; exact Nat.mul_mod_right s _
        obtain ⟨ih1, ih2, ih3⟩ := ih (fill - B) (pos + B) (by omega) (by omega)
        rw [hdiv, hmod] at ih1 ih2 ih3
        refine ⟨?_, ?_, ?_⟩
        · simp only [buffer_group_get_size, span_len, ih1]
          omega
        · simp only [group_positions, span_positions, hpos_eq, ih2]
          rw [List.range'_append_1]
          congr 1
          omega
        · simp only [group_ixs, span_ix, ih3, List.length_cons]
          rw [List.range'_succ]
      · have hBval : B = fill := by rw [hB]; omega
        have hzero : fill - B = 0 := by omega
        rw [hzero, mk_spans_go_zero]
        refine ⟨?_, ?_, ?_⟩
        · simp [buffer_group_get_size, span_len, hBval]
        · simp [group_positions, span_positions, hpos_eq, hBval]
        · simp [group_ixs, span_ix, List.range'_succ]

/-! ## Characterizing the success paths of operate -/

theorem value_size_eq (ov : btree_value) :
    ov.value_size = ov.value_bytes.length := by
  cases ov <;> rfl

theorem fill_mem_node (mem : List Nat) (off len : Nat) (data : List Nat) :
    fill_mem mem [.node off len] data = writeList mem off (data.take len) := by
  simp [fill_mem]

theorem small_prepend_move (ob : List Nat) (d : Nat) :
    memmove (ob ++ List.replicate d 0) d 0 ob.length
      = (ob ++ List.replicate d 0).take d ++ ob := by
  unfold memmove writeList
  rw [List.drop_zero, List.take_left]
  have hdrop : (ob ++ List.replicate d 0).drop (d + ob.length) = [] :=
    List.drop_of_length_le (by simp; omega)
  rw [hdrop, List.append_assoc, List.append_nil]

theorem alloc_fill_append (ob : List Nat) (d : Nat) :
    writeList (List.replicate (ob.length + d) 0) 0 ob
      = ob ++ List.replicate d 0 := by
  unfold writeList
  simp [List.drop_replicate]

theorem alloc_fill_prepend (ob : List Nat) (d : Nat) :
    writeList (List.replicate (ob.length + d) 0) d ob
      = List.replicate d 0 ++ ob := by
  unfold writeList
  rw [List.take_replicate, List.drop_replicate]
  have h1 : min d (ob.length + d) = d := by omega
  have h2 : ob.length + d - (d + ob.length) = 0 := by omega
  rw [h1, h2]
  simp

theorem prepared_lb_bytes (s : Nat) (ov : btree_value) (d : Nat) (ap : Bool) :
    (prepared_lb s ov d ap).bytes =
      (if ap then ov.value_bytes ++ List.replicate d 0
       else List.replicate d 0 ++ ov.value_bytes) := by
  cases ov with
  | small ob =>
    cases ap <;>
      simp [prepared_lb, large_buf_t.allocate, large_buf_t.fill_at,
        btree_value.value_bytes, alloc_fill_append, alloc_fill_prepend]
  | large lb =>
    cases ap <;>
      simp [prepared_lb, large_buf_t.append, large_buf_t.prepend,
        btree_value.value_bytes]

theorem prepared_lb_size (s : Nat) (ov : btree_value) (d : Nat) (ap : Bool) :
    (prepared_lb s ov d ap).size = ov.value_size + d := by
  rw [large_buf_t.size, prepared_lb_bytes, value_size_eq]
  cases ap <;> simp <;> omega

theorem lb_fill_dest (s : Nat) (hs : 0 < s) (lb1 : large_buf_t)
    (start fill : Nat) (h : start + fill ≤ lb1.size) (data : List Nat) :
    lb_fill s lb1
      (mk_spans lb1.offset lb1.size s ((lb1.offset + start) / s)
        ((lb1.offset + start) % s) fill) data
      = ⟨lb1.offset, writeList lb1.bytes start (data.take fill)⟩ := by
  have hw := mk_spans_go_write s hs lb1.offset lb1.size fill fill start
    lb1.bytes data rfl h (le_refl _)
  rw [mk_spans]
  exact hw

theorem operate_success_shape (mi mv s : Nat) (hs : 0 < s) (ov : btree_value)
    (hwf : value_wf mi s ov) (dp : data_provider_t) (hfail : dp.failure = none)
    (hsz : ov.value_size + dp.get_size ≤ mv) (ap : Bool) :
    ∃ nv, operate mi mv s (some ov) dp ap = .success nv ∧
      nv.value_bytes =
        (if ap then ov.value_bytes ++ dp.bytes else dp.bytes ++ ov.value_bytes) ∧
      (nv.is_large = false ↔ ov.value_size + dp.get_size ≤ mi) ∧
      nv.value_size = ov.value_size + dp.get_size ∧
      nv.value_offset =
        (if ov.value_size + dp.get_size ≤ mi then 0
         else (prepared_lb s ov dp.get_size ap).offset) := by
  by_cases hmi : ov.value_size + dp.get_size ≤ mi
  · -- small destination: the old value must be small
    cases ov with
    | large lb =>
      exfalso
      have h2 := (hwf.2 rfl).1
      simp only [btree_value.value_size] at h2 hmi
      omega
    | small ob =>
      simp only [btree_value.value_size] at hmi hsz
      have hred : operate mi mv s (some (.small ob)) dp ap
          = .success (.small (fill_mem
              (if ap then ob ++ List.replicate dp.get_size 0
               else memmove (ob ++ List.replicate dp.get_size 0) dp.get_size 0
                 ob.length)
              (dest_group mi s (.small ob) dp.get_size ap) dp.bytes)) := by
        simp only [operate, hfail, btree_value.value_size]
        rw [if_neg (by omega), if_pos hmi]
      have hg : dest_group mi s (.small ob) dp.get_size ap
          = if ap then [.node ob.length dp.get_size]
            else [.node 0 dp.get_size] := by
        simp only [dest_group, btree_value.value_size]
        rw [if_pos hmi]
      have htake : dp.bytes.take dp.get_size = dp.bytes :=
        List.take_length dp.bytes
      cases ap with
      | true =>
        simp only [if_pos trivial, if_true] at hred hg
        rw [hg, fill_mem_node, htake] at hred
        rw [writeList_after ob _ dp.bytes (by simp [data_provider_t.get_size])]
          at hred
        refine ⟨_, hred, ?_, ?_, ?_, ?_⟩
        · simp [btree_value.value_bytes]
        · simp [btree_value.is_large, btree_value.value_size, hmi]
        · simp [btree_value.value_size, data_provider_t.get_size]
        · simp only [btree_value.value_offset, btree_value.value_size]
          rw [if_pos hmi]
      | false =>
        simp only [if_neg (Bool.false_ne_true), if_false] at hred hg
        rw [hg, fill_mem_node, htake, small_prepend_move] at hred
        have hXlen : ((ob ++ List.replicate dp.get_size 0).take
            dp.get_size).length = dp.bytes.length := by
          simp [data_provider_t.get_size]
        rw [writeList_front _ ob dp.bytes hXlen.symm] at hred
        refine ⟨_, hred, ?_, ?_, ?_, ?_⟩
        · simp [btree_value.value_bytes]
        · simp [btree_value.is_large, btree_value.value_size, hmi]
        · simp [btree_value.value_size, data_provider_t.get_size]; omega
        · simp only [btree_value.value_offset, btree_value.value_size]
          rw [if_pos hmi]
  · -- large destination
    have hred : operate mi mv s (some ov) dp ap
        = .success (.large (lb_fill s (prepared_lb s ov dp.get_size ap)
            (dest_group mi s ov dp.get_size ap) dp.bytes)) := by
      cases ov with
      | small ob =>
        simp only [btree_value.value_size] at hmi hsz
        simp only [operate, hfail, btree_value.value_size]
        rw [if_neg (by omega), if_neg hmi]
      | large lb =>
        simp only [btree_value.value_size] at hmi hsz
        simp only [operate, hfail, btree_value.value_size]
        rw [if_neg (by omega), if_neg hmi]
    have hg : dest_group mi s ov dp.get_size ap
        = mk_spans (prepared_lb s ov dp.get_size ap).offset
            (prepared_lb s ov dp.get_size ap).size s
            (((prepared_lb s ov dp.get_size ap).offset +
              (if ap then ov.value_size else 0)) / s)
            (((prepared_lb s ov dp.get_size ap).offset +
              (if ap then ov.value_size else 0)) % s) dp.get_size := by
      simp only [dest_group]
      rw [if_neg hmi]
    have hstart : (if ap then ov.value_size else 0) + dp.get_size ≤
        (prepared_lb s ov dp.get_size ap).size := by
      rw [prepared_lb_size]
      cases ap <;> simp
    rw [hg, lb_fill_dest s hs _ _ _ hstart] at hred
    have htake : dp.bytes.take dp.get_size = dp.bytes :=
      List.take_length dp.bytes
    rw [htake, prepared_lb_bytes] at hred
    have hlen : dp.bytes.length = dp.get_size := rfl
    have hbytes : writeList
        (if ap then ov.value_bytes ++ List.replicate dp.get_size 0
         else List.replicate dp.get_size 0 ++ ov.value_bytes)
        (if ap then ov.value_size else 0) dp.bytes
        = (if ap then ov.value_bytes ++ dp.bytes
           else dp.bytes ++ ov.value_bytes) := by
      cases ap with
      | true =>
        show writeList (ov.value_bytes ++ List.replicate dp.get_size 0)
            ov.value_size dp.bytes = ov.value_bytes ++ dp.bytes
        rw [value_size_eq]
        exact writeList_after _ _ _ (by simp [data_provider_t.get_size])
      | false =>
        show writeList (List.replicate dp.get_size 0 ++ ov.value_bytes)
            0 dp.bytes = dp.bytes ++ ov.value_bytes
        exact writeList_front _ _ _ (by simp [data_provider_t.get_size])
    rw [hbytes] at hred
    refine ⟨_, hred, ?_, ?_, ?_, ?_⟩
    · rfl
    · simp [btree_value.is_large, hmi]
    · cases ap with
      | true =>
        show (ov.value_bytes ++ dp.bytes).length = ov.value_size + dp.get_size
        rw [List.length_append, value_size_eq]
        rfl
      | false =>
        show (dp.bytes ++ ov.value_bytes).length = ov.value_size + dp.get_size
        rw [List.length_append, value_size_eq]
        exact Nat.add_comm _ _
    · simp [btree_value.value_offset, hmi]

/-! ## Characterizing the provider-failure paths of operate -/

theorem offset_roundtrip (s : Nat) (hs : 0 < s) (o delta : Nat) (ho : o < s) :
    ((o + (s - delta % s)) % s + delta) % s = o := by
  rw [Nat.mod_add_mod]
  have h1 : delta % s < s := Nat.mod_lt _ hs
  have h2 := Nat.div_add_mod delta s
  have h3 : o + (s - delta % s) + delta = o + s * (delta / s + 1) := by
    rw [Nat.mul_succ]; omega
  rw [h3, Nat.add_mul_mod_self_left]
  exact Nat.mod_eq_of_lt ho

theorem unappend_restore (ob R J : List Nat) :
    (writeList (ob ++ R) ob.length J).take ob.length = ob := by
  unfold writeList
  rw [List.take_left, List.append_assoc]
  exact List.take_left' rfl

theorem unprepend_restore (R ob J : List Nat) (d : Nat) (hR : R.length = d)
    (hJ : J.length ≤ d) :
    (writeList (R ++ ob) 0 J).drop d = ob := by
  unfold writeList
  simp only [List.take_zero, List.nil_append, Nat.zero_add]
  have h1 : d = J.length + (d - J.length) := by omega
  rw [h1, List.drop_append, List.drop_drop, ← h1, List.drop_left' hR]

theorem operate_fail_shape (mi mv s : Nat) (hs : 0 < s) (ov : btree_value)
    (hwf : value_wf mi s ov) (dp : data_provider_t) (junk : List Nat)
    (hfail : dp.failure = some junk)
    (hsz : ov.value_size + dp.get_size ≤ mv) (ap : Bool) :
    stored_after (some ov) (operate mi mv s (some ov) dp ap) = some ov ∧
    (∀ olb, ov = .large olb →
      operate mi mv s (some ov) dp ap = .providerFailed (.shrunk olb)) ∧
    (ov.is_large = false → mi < ov.value_size + dp.get_size →
      ∃ lb, operate mi mv s (some ov) dp ap = .providerFailed (.deleted lb)) ∧
    (ov.is_large = false → ov.value_size + dp.get_size ≤ mi →
      operate mi mv s (some ov) dp ap = .providerFailed .nonePrepared) := by
  cases ov with
  | small ob =>
    simp only [btree_value.value_size] at hsz
    by_cases hmi : ob.length + dp.get_size ≤ mi
    · have hred : operate mi mv s (some (.small ob)) dp ap
          = .providerFailed .nonePrepared := by
        simp only [operate, hfail, btree_value.value_size]
        rw [if_neg (by omega), if_pos hmi]
      refine ⟨by rw [hred]; rfl, ?_, ?_, fun _ _ => hred⟩
      · intro olb heq; exact absurd heq (by simp)
      · intro _ h2
        simp only [btree_value.value_size] at h2
        omega
    · have hred : operate mi mv s (some (.small ob)) dp ap
          = .providerFailed (.deleted
              (lb_fill s (prepared_lb s (.small ob) dp.get_size ap)
                (dest_group mi s (.small ob) dp.get_size ap) junk)) := by
        simp only [operate, hfail, btree_value.value_size]
        rw [if_neg (by omega), if_neg hmi]
      refine ⟨by rw [hred]; rfl, ?_, fun _ _ => ⟨_, hred⟩, ?_⟩
      · intro olb heq; exact absurd heq (by simp)
      · intro _ h2
        simp only [btree_value.value_size] at h2
        omega
  | large olb =>
    have hbig : mi < olb.size := by
      have := (hwf.2 rfl).1
      simpa [btree_value.value_size] using this
    have hoff : olb.offset < s := by
      have := (hwf.2 rfl).2
      simpa [btree_value.value_offset] using this
    simp only [btree_value.value_size] at hsz
    have hmi : ¬(olb.size + dp.get_size ≤ mi) := by omega
    have hg : dest_group mi s (.large olb) dp.get_size ap
        = mk_spans (prepared_lb s (.large olb) dp.get_size ap).offset
            (prepared_lb s (.large olb) dp.get_size ap).size s
            (((prepared_lb s (.large olb) dp.get_size ap).offset +
              (if ap then olb.size else 0)) / s)
            (((prepared_lb s (.large olb) dp.get_size ap).offset +
              (if ap then olb.size else 0)) % s) dp.get_size := by
      simp only [dest_group, btree_value.value_size]
      rw [if_neg hmi]
    have hstart : (if ap then olb.size else 0) + dp.get_size ≤
        (prepared_lb s (.large olb) dp.get_size ap).size := by
      rw [prepared_lb_size]
      simp only [btree_value.value_size]
      cases ap <;> simp
    have hred : operate mi mv s (some (.large olb)) dp ap
        = .providerFailed (.shrunk
            (if ap then
              (lb_fill s (prepared_lb s (.large olb) dp.get_size ap)
                (dest_group mi s (.large olb) dp.get_size ap)
                junk).unappend dp.get_size
             else
              (lb_fill s (prepared_lb s (.large olb) dp.get_size ap)
                (dest_group mi s (.large olb) dp.get_size ap)
                junk).unprepend s dp.get_size)) := by
      simp only [operate, hfail, btree_value.value_size]
      rw [if_neg (by omega), if_neg hmi]
    rw [hg, lb_fill_dest s hs _ _ _ hstart] at hred
    have hrestore :
        (if ap then
          (large_buf_t.mk (prepared_lb s (.large olb) dp.get_size ap).offset
            (writeList (prepared_lb s (.large olb) dp.get_size ap).bytes
              (if ap then olb.size else 0)
              (junk.take dp.get_size))).unappend dp.get_size
         else
          (large_buf_t.mk (prepared_lb s (.large olb) dp.get_size ap).offset
            (writeList (prepared_lb s (.large olb) dp.get_size ap).bytes
              (if ap then olb.size else 0)
              (junk.take dp.get_size))).unprepend s dp.get_size) = olb := by
      cases ap with
      | true =>
        simp only [if_pos, prepared_lb, large_buf_t.append, large_buf_t.unappend]
        have hlw : (writeList (olb.bytes ++ List.replicate dp.get_size 0)
            olb.size (junk.take dp.get_size)).length
            = olb.bytes.length + dp.get_size := by
          rw [length_writeList]
          · simp
          · simp only [List.length_append, List.length_replicate,
              List.length_take, large_buf_t.size]
            omega
        rw [hlw]
        have : olb.bytes.length + dp.get_size - dp.get_size
            = olb.bytes.length := by omega
        rw [this]
        show large_buf_t.mk olb.offset
          ((writeList (olb.bytes ++ List.replicate dp.get_size 0)
            olb.bytes.length (junk.take dp.get_size)).take olb.bytes.length)
          = olb
        rw [unappend_restore]
      | false =>
        simp only [prepared_lb, large_buf_t.prepend, large_buf_t.unprepend]
        show large_buf_t.mk
          (((olb.offset + (s - dp.get_size % s)) % s + dp.get_size) % s)
          ((writeList (List.replicate dp.get_size 0 ++ olb.bytes) 0
            (junk.take dp.get_size)).drop dp.get_size) = olb
        rw [offset_roundtrip s hs _ _ hoff,
          unprepend_restore _ _ _ _ (List.length_replicate _ _)
            (by simp [List.length_take])]
    rw [hrestore] at hred
    refine ⟨?_, ?_, ?_, ?_⟩
    · rw [hred]; rfl
    · intro olb2 heq
      have : olb2 = olb := by
        injection heq with h; exact h.symm
      rw [this]; exact hred
    · intro hL; exact absurd hL (by simp [btree_value.is_large])
    · intro hL; exact absurd hL (by simp [btree_value.is_large])

/-! ## Remaining control-flow facts about operate -/

theorem operate_too_large (mi mv s : Nat) (ov : btree_value)
    (dp : data_provider_t) (ap : Bool)
    (hsz : mv < ov.value_size + dp.get_size) :
    operate mi mv s (some ov) dp ap = .tooLarge := by
  simp only [operate]
  rw [if_pos hsz]

theorem operate_some_not_notfound (mi mv s : Nat) (v : btree_value)
    (dp : data_provider_t) (ap : Bool) :
    operate mi mv s (some v) dp ap ≠ .notFound := by
  cases v with
  | small ob =>
    simp only [operate, btree_value.value_size]
    by_cases h1 : mv < ob.length + dp.get_size
    · rw [if_pos h1]; simp
    · rw [if_neg h1]
      by_cases h2 : ob.length + dp.get_size ≤ mi
      · rw [if_pos h2]
        cases hf : dp.failure <;> simp
      · rw [if_neg h2]
        cases hf : dp.failure <;> simp
  | large olb =>
    simp only [operate, btree_value.value_size]
    by_cases h1 : mv < olb.size + dp.get_size
    · rw [if_pos h1]; simp
    · rw [if_neg h1]
      by_cases h2 : olb.size + dp.get_size ≤ mi
      · rw [if_pos h2]; simp
      · rw [if_neg h2]
        cases hf : dp.failure <;> simp

theorem operate_no_assert (mi mv s : Nat) (v : btree_value)
    (hwf : value_wf mi s v) (dp : data_provider_t) (ap : Bool) :
    operate mi mv s (some v) dp ap ≠ .assertFailed := by
  cases v with
  | small ob =>
    simp only [operate, btree_value.value_size]
    by_cases h1 : mv < ob.length + dp.get_size
    · rw [if_pos h1]; simp
    · rw [if_neg h1]
      by_cases h2 : ob.length + dp.get_size ≤ mi
      · rw [if_pos h2]
        cases hf : dp.failure <;> simp
      · rw [if_neg h2]
        cases hf : dp.failure <;> simp
  | large olb =>
    have hbig := (hwf.2 rfl).1
    simp only [btree_value.value_size] at hbig
    simp only [operate, btree_value.value_size]
    by_cases h1 : mv < olb.size + dp.get_size
    · rw [if_pos h1]; simp
    · rw [if_neg h1]
      have h2 : ¬(olb.size + dp.get_size ≤ mi) := by
        simp only [large_buf_t.size] at *
        omega
      rw [if_neg h2]
      cases hf : dp.failure <;> simp

theorem operate_fail_result (mi mv s : Nat) (hs : 0 < s) (ov : btree_value)
    (hwf : value_wf mi s ov) (dp : data_provider_t) (junk : List Nat)
    (hfail : dp.failure = some junk)
    (hsz : ov.value_size + dp.get_size ≤ mv) (ap : Bool) :
    ∃ rb, operate mi mv s (some ov) dp ap = .providerFailed rb := by
  obtain ⟨-, h2, h3, h4⟩ :=
    operate_fail_shape mi mv s hs ov hwf dp junk hfail hsz ap
  cases ov with
  | large olb => exact ⟨_, h2 olb rfl⟩
  | small ob =>
    by_cases hmi : (btree_value.small ob).value_size + dp.get_size ≤ mi
    · exact ⟨_, h4 rfl hmi⟩
    · obtain ⟨lb, hlb⟩ := h3 rfl (by omega)
      exact ⟨_, hlb⟩

/-! ## The claims -/

/-- C1: for every existing well-formed old value and every provider whose
declared size keeps the total within MAX_VALUE_SIZE, if the fill succeeds
the operation installs a value whose bytes are old_bytes ++ new_bytes for
append and new_bytes ++ old_bytes for prepend, across all three transition
classes. -/
theorem claim_C1_success_concat (mi mv s : Nat) (hs : 0 < s)
    (ov : btree_value) (hwf : value_wf mi s ov) (dp : data_provider_t)
    (hfail : dp.failure = none) (hsz : ov.value_size + dp.get_size ≤ mv)
    (ap : Bool) :
    ∃ nv, operate mi mv s (some ov) dp ap = .success nv ∧
      nv.value_bytes = (if ap then ov.value_bytes ++ dp.bytes
                        else dp.bytes ++ ov.value_bytes) := by
  obtain ⟨nv, h1, h2, -⟩ :=
    operate_success_shape mi mv s hs ov hwf dp hfail hsz ap
  exact ⟨nv, h1, h2⟩

theorem claim_C1_witness :
    0 < 3 ∧ value_wf 4 3 (.small [1, 2]) ∧
    (data_provider_t.mk [7, 8, 9] none).failure = none ∧
    (btree_value.small [1, 2]).value_size +
      (data_provider_t.mk [7, 8, 9] none).get_size ≤ 100 ∧
    ∃ nv, operate 4 100 3 (some (.small [1, 2])) ⟨[7, 8, 9], none⟩ true
        = .success nv ∧
      nv.value_bytes =
        (if true then (btree_value.small [1, 2]).value_bytes ++ [7, 8, 9]
         else [7, 8, 9] ++ (btree_value.small [1, 2]).value_bytes) :=
  ⟨by decide, by decide, rfl, by decide,
    claim_C1_success_concat 4 100 3 (by decide) (.small [1, 2]) (by decide)
      ⟨[7, 8, 9], none⟩ rfl (by decide) true⟩

/-- C2: whenever the provider fails during the fill, the stored value is
exactly the pre-operation value: for large-to-large the large buffer is
shrunk back to its original state on the same end, for small-to-large the
fresh large buffer is marked deleted and the small value kept; no
half-grown value is ever observable. -/
theorem claim_C2_provider_failure_rollback (mi mv s : Nat) (hs : 0 < s)
    (ov : btree_value) (hwf : value_wf mi s ov) (dp : data_provider_t)
    (junk : List Nat) (hfail : dp.failure = some junk)
    (hsz : ov.value_size + dp.get_size ≤ mv) (ap : Bool) :
    stored_after (some ov) (operate mi mv s (some ov) dp ap) = some ov ∧
    (∀ olb, ov = .large olb →
      operate mi mv s (some ov) dp ap = .providerFailed (.shrunk olb)) ∧
    (ov.is_large = false → mi < ov.value_size + dp.get_size →
      ∃ lb, operate mi mv s (some ov) dp ap = .providerFailed (.deleted lb)) := by
  obtain ⟨h1, h2, h3, -⟩ :=
    operate_fail_shape mi mv s hs ov hwf dp junk hfail hsz ap
  exact ⟨h1, h2, h3⟩

theorem claim_C2_witness :
    0 < 3 ∧ value_wf 2 3 (.large ⟨1, [5, 6, 7]⟩) ∧
    (data_provider_t.mk [9, 9] (some [4])).failure = some [4] ∧
    (btree_value.large ⟨1, [5, 6, 7]⟩).value_size +
      (data_provider_t.mk [9, 9] (some [4])).get_size ≤ 100 ∧
    (stored_after (some (.large ⟨1, [5, 6, 7]⟩))
        (operate 2 100 3 (some (.large ⟨1, [5, 6, 7]⟩)) ⟨[9, 9], some [4]⟩
          false)
      = some (.large ⟨1, [5, 6, 7]⟩) ∧
    (∀ olb, btree_value.large ⟨1, [5, 6, 7]⟩ = .large olb →
      operate 2 100 3 (some (.large ⟨1, [5, 6, 7]⟩)) ⟨[9, 9], some [4]⟩ false
        = .providerFailed (.shrunk olb)) ∧
    ((btree_value.large ⟨1, [5, 6, 7]⟩).is_large = false →
      2 < (btree_value.large ⟨1, [5, 6, 7]⟩).value_size +
        (data_provider_t.mk [9, 9] (some [4])).get_size →
      ∃ lb, operate 2 100 3 (some (.large ⟨1, [5, 6, 7]⟩))
          ⟨[9, 9], some [4]⟩ false = .providerFailed (.deleted lb))) :=
  ⟨by decide, by decide, rfl, by decide,
    claim_C2_provider_failure_rollback 2 100 3 (by decide)
      (.large ⟨1, [5, 6, 7]⟩) (by decide) ⟨[9, 9], some [4]⟩ [4] rfl
      (by decide) false⟩

/-- C3: when the old length plus the delta exceeds MAX_VALUE_SIZE the
operation fails with TooLarge before any mutation: the stored value is
unchanged and no rollback state (hence no large buffer) was ever
prepared. -/
theorem claim_C3_too_large (mi mv s : Nat) (ov : btree_value)
    (dp : data_provider_t) (ap : Bool)
    (hsz : mv < ov.value_size + dp.get_size) :
    operate mi mv s (some ov) dp ap = .tooLarge ∧
    stored_after (some ov) (operate mi mv s (some ov) dp ap) = some ov := by
  have h := operate_too_large mi mv s ov dp ap hsz
  exact ⟨h, by rw [h]; rfl⟩

theorem claim_C3_witness :
    8 < (btree_value.small [1, 2, 3]).value_size +
      (data_provider_t.mk [7, 8, 9, 10, 11, 12] none).get_size ∧
    (operate 4 8 3 (some (.small [1, 2, 3])) ⟨[7, 8, 9, 10, 11, 12], none⟩
        true = .tooLarge ∧
     stored_after (some (.small [1, 2, 3]))
        (operate 4 8 3 (some (.small [1, 2, 3]))
          ⟨[7, 8, 9, 10, 11, 12], none⟩ true)
      = some (.small [1, 2, 3])) :=
  ⟨by decide, claim_C3_too_large 4 8 3 (.small [1, 2, 3])
    ⟨[7, 8, 9, 10, 11, 12], none⟩ true (by decide)⟩

/-- C4: after every successful commit the installed value is tagged small
if and only if its total byte length is at most the inline threshold; it is
never both tagged large and within the threshold. -/
theorem claim_C4_representation_invariant (mi mv s : Nat) (hs : 0 < s)
    (ov : btree_value) (hwf : value_wf mi s ov) (dp : data_provider_t)
    (ap : Bool) (nv : btree_value)
    (hsucc : operate mi mv s (some ov) dp ap = .success nv) :
    nv.is_large = false ↔ nv.value_size ≤ mi := by
  by_cases h1 : mv < ov.value_size + dp.get_size
  · rw [operate_too_large mi mv s ov dp ap h1] at hsucc
    exact absurd hsucc (by simp)
  · have hsz : ov.value_size + dp.get_size ≤ mv := by omega
    cases hf : dp.failure with
    | some junk =>
      obtain ⟨rb, hr⟩ :=
        operate_fail_result mi mv s hs ov hwf dp junk hf hsz ap
      rw [hr] at hsucc
      exact absurd hsucc (by simp)
    | none =>
      obtain ⟨nv2, h1', h2, h3, h4, -⟩ :=
        operate_success_shape mi mv s hs ov hwf dp hf hsz ap
      rw [hsucc] at h1'
      cases h1'
      rw [h4]
      exact h3

theorem claim_C4_witness :
    0 < 3 ∧ value_wf 4 3 (.small [1, 2, 3]) ∧
    operate 4 100 3 (some (.small [1, 2, 3])) ⟨[7, 8], none⟩ true
      = .success (.large ⟨0, [1, 2, 3, 7, 8]⟩) ∧
    ((btree_value.large ⟨0, [1, 2, 3, 7, 8]⟩).is_large = false ↔
      (btree_value.large ⟨0, [1, 2, 3, 7, 8]⟩).value_size ≤ 4) :=
  ⟨by decide, by decide, by decide,
    claim_C4_representation_invariant 4 100 3 (by decide) (.small [1, 2, 3])
      (by decide) ⟨[7, 8], none⟩ true (.large ⟨0, [1, 2, 3, 7, 8]⟩)
      (by decide)⟩

/-- C5: the destination buffer group handed to the provider has span
lengths summing exactly to the declared delta in every transition class,
and for large destinations the spans cover exactly the newly reserved
byte range through the segment mapping — starting at the old length for
append and at offset 0 for prepend, with one span per consecutive
segment touched. -/
theorem claim_C5_dest_group_spans (mi s : Nat) (hs : 0 < s)
    (ov : btree_value) (delta : Nat) (ap : Bool) :
    buffer_group_get_size (dest_group mi s ov delta ap) = delta ∧
    (mi < ov.value_size + delta →
      group_positions (prepared_lb s ov delta ap).offset s
          (dest_group mi s ov delta ap)
        = List.range' (if ap then ov.value_size else 0) delta ∧
      ∃ n, group_ixs (dest_group mi s ov delta ap)
        = List.range' (((prepared_lb s ov delta ap).offset +
            (if ap then ov.value_size else 0)) / s) n) := by
  by_cases hmi : ov.value_size + delta ≤ mi
  · constructor
    · simp only [dest_group, if_pos hmi]
      cases ap <;> simp [buffer_group_get_size, span_len]
    · intro h; omega
  · have hstart : (if ap then ov.value_size else 0) + delta ≤
        (prepared_lb s ov delta ap).size := by
      rw [prepared_lb_size]
      cases ap <;> simp
    obtain ⟨hsum, hpos, hixs⟩ := mk_spans_go_spec s hs
      (prepared_lb s ov delta ap).offset (prepared_lb s ov delta ap).size
      delta delta (if ap then ov.value_size else 0) hstart (le_refl _)
    have hg : dest_group mi s ov delta ap = mk_spans_go
        (prepared_lb s ov delta ap).offset (prepared_lb s ov delta ap).size s
        delta
        (((prepared_lb s ov delta ap).offset +
          (if ap then ov.value_size else 0)) / s)
        (((prepared_lb s ov delta ap).offset +
          (if ap then ov.value_size else 0)) % s) delta := by
      simp only [dest_group, if_neg hmi, mk_spans]
    rw [hg]
    exact ⟨hsum, fun _ => ⟨hpos, _, hixs⟩⟩

theorem claim_C5_witness :
    0 < 4 ∧
    (buffer_group_get_size
        (dest_group 4 4 (.large ⟨2, [0, 1, 2, 3, 4, 5, 6, 7, 8, 9]⟩) 3 false)
      = 3 ∧
    (4 < (btree_value.large ⟨2, [0, 1, 2, 3, 4, 5, 6, 7, 8, 9]⟩).value_size
        + 3 →
      group_positions
          (prepared_lb 4 (.large ⟨2, [0, 1, 2, 3, 4, 5, 6, 7, 8, 9]⟩) 3
            false).offset 4
          (dest_group 4 4 (.large ⟨2, [0, 1, 2, 3, 4, 5, 6, 7, 8, 9]⟩) 3
            false)
        = List.range'
            (if false then
              (btree_value.large ⟨2, [0, 1, 2, 3, 4, 5, 6, 7, 8, 9]⟩).value_size
             else 0) 3 ∧
      ∃ n, group_ixs
          (dest_group 4 4 (.large ⟨2, [0, 1, 2, 3, 4, 5, 6, 7, 8, 9]⟩) 3
            false)
        = List.range'
            (((prepared_lb 4 (.large ⟨2, [0, 1, 2, 3, 4, 5, 6, 7, 8, 9]⟩) 3
              false).offset +
              (if false then
                (btree_value.large
                  ⟨2, [0, 1, 2, 3, 4, 5, 6, 7, 8, 9]⟩).value_size
               else 0)) / 4) n)) :=
  ⟨by decide, claim_C5_dest_group_spans 4 4 (by decide)
    (.large ⟨2, [0, 1, 2, 3, 4, 5, 6, 7, 8, 9]⟩) 3 false⟩

/-- C6: every invocation produces exactly one of the four reportable
results; the result is NotFound exactly when the key has no existing
value, and in that case nothing is mutated. -/
theorem claim_C6_exactly_one_result (mi mv s : Nat)
    (old : Option btree_value) (hwf : ∀ v, old = some v → value_wf mi s v)
    (dp : data_provider_t) (ap : Bool) :
    (∃ res, btree_append_prepend mi mv s old dp ap = some res) ∧
    (btree_append_prepend mi mv s old dp ap = some .apr_not_found ↔
      old = none) ∧
    (old = none → stored_after old (operate mi mv s old dp ap) = none) := by
  cases old with
  | none =>
    exact ⟨⟨.apr_not_found, rfl⟩, by simp [btree_append_prepend, operate,
      result_of], fun _ => rfl⟩
  | some v =>
    have hv := hwf v rfl
    have hna := operate_no_assert mi mv s v hv dp ap
    have hnf := operate_some_not_notfound mi mv s v dp ap
    refine ⟨?_, ?_, by simp⟩
    · cases hr : operate mi mv s (some v) dp ap with
      | notFound => exact absurd hr hnf
      | assertFailed => exact absurd hr hna
      | tooLarge =>
        exact ⟨.apr_too_large, by simp [btree_append_prepend, hr, result_of]⟩
      | success nv =>
        exact ⟨.apr_success, by simp [btree_append_prepend, hr, result_of]⟩
      | providerFailed rb =>
        exact ⟨.apr_data_provider_failed,
          by simp [btree_append_prepend, hr, result_of]⟩
    · constructor
      · intro h
        simp only [btree_append_prepend] at h
        cases hr : operate mi mv s (some v) dp ap with
        | notFound => exact absurd hr hnf
        | assertFailed => exact absurd hr hna
        | tooLarge => rw [hr] at h; simp [result_of] at h
        | success nv => rw [hr] at h; simp [result_of] at h
        | providerFailed rb => rw [hr] at h; simp [result_of] at h
      · intro h; exact absurd h (by simp)

theorem claim_C6_witness :
    (∀ v, (some (btree_value.small [1]) : Option btree_value) = some v →
      value_wf 4 3 v) ∧
    ((∃ res, btree_append_prepend 4 100 3 (some (.small [1])) ⟨[2], none⟩
        true = some res) ∧
    (btree_append_prepend 4 100 3 (some (.small [1])) ⟨[2], none⟩ true
        = some .apr_not_found ↔
      (some (btree_value.small [1]) : Option btree_value) = none) ∧
    ((some (btree_value.small [1]) : Option btree_value) = none →
      stored_after (some (.small [1]))
        (operate 4 100 3 (some (.small [1])) ⟨[2], none⟩ true) = none)) :=
  have hw : ∀ v, (some (btree_value.small [1]) : Option btree_value)
      = some v → value_wf 4 3 v := by
    intro v hv
    injection hv with h
    rw [← h]
    decide
  ⟨hw, claim_C6_exactly_one_result 4 100 3 (some (.small [1])) hw
    ⟨[2], none⟩ true⟩

/-- C7: a zero-length delta is legal and is a no-op transition: for every
well-formed old value the operation succeeds and installs a value
identical to the old one, with the same tag, bytes, length and mapping
origin. -/
theorem claim_C7_zero_delta_noop (mi mv s : Nat) (hs : 0 < s)
    (ov : btree_value) (hwf : value_wf mi s ov) (hsz : ov.value_size ≤ mv)
    (ap : Bool) :
    operate mi mv s (some ov) ⟨[], none⟩ ap = .success ov := by
  obtain ⟨nv, h1, h2, h3, h4, h5⟩ := operate_success_shape mi mv s hs ov hwf
    ⟨[], none⟩ rfl (by simpa [data_provider_t.get_size] using hsz) ap
  have hb : nv.value_bytes = ov.value_bytes := by
    rw [h2]; cases ap <;> simp
  have hnv : nv = ov := by
    cases ov with
    | small ob =>
      have hsm : ob.length ≤ mi := by
        have := hwf.1 rfl
        simpa [btree_value.value_size] using this
      have hL : nv.is_large = false := h3.mpr
        (by simp [btree_value.value_size, data_provider_t.get_size, hsm])
      cases nv with
      | large _ => simp [btree_value.is_large] at hL
      | small nb =>
        simp only [btree_value.value_bytes] at hb
        rw [hb]
    | large olb =>
      have hbig : mi < olb.size := by
        have := (hwf.2 rfl).1
        simpa [btree_value.value_size] using this
      have hoff : olb.offset < s := by
        have := (hwf.2 rfl).2
        simpa [btree_value.value_offset] using this
      have hcond : ¬((btree_value.large olb).value_size +
          (data_provider_t.mk [] none).get_size ≤ mi) := by
        simp [btree_value.value_size, data_provider_t.get_size]
        omega
      rw [if_neg hcond] at h5
      have hoffeq : (prepared_lb s (.large olb)
          (data_provider_t.mk [] none).get_size ap).offset = olb.offset := by
        cases ap with
        | true => rfl
        | false =>
          show (olb.offset + (s - (data_provider_t.mk [] none).get_size % s))
              % s = olb.offset
          have hz : (data_provider_t.mk [] none).get_size % s = 0 := by
            simp [data_provider_t.get_size]
          rw [hz, Nat.sub_zero, Nat.add_mod_right]
          exact Nat.mod_eq_of_lt hoff
      rw [hoffeq] at h5
      have hL : nv.is_large = true := by
        cases hcl : nv.is_large with
        | false =>
          have := h3.mp hcl
          exact absurd this hcond
        | true => rfl
      cases nv with
      | small _ => simp [btree_value.is_large] at hL
      | large lb =>
        simp only [btree_value.value_bytes] at hb
        simp only [btree_value.value_offset] at h5
        obtain ⟨lo, lbs⟩ := lb
        obtain ⟨oo, obs⟩ := olb
        simp only at hb h5
        rw [hb, h5]
  rw [hnv] at h1
  exact h1

theorem claim_C7_witness :
    0 < 3 ∧ value_wf 4 3 (.small [1, 2]) ∧
    (btree_value.small [1, 2]).value_size ≤ 100 ∧
    operate 4 100 3 (some (.small [1, 2])) ⟨[], none⟩ true
      = .success (.small [1, 2]) :=
  ⟨by decide, by decide, by decide,
    claim_C7_zero_delta_noop 4 100 3 (by decide) (.small [1, 2]) (by decide)
      (by decide) true⟩

/-- C8: the large value is acquired in write mode on the end chosen by the
direction flag — the right-hand side for append and the left-hand side for
prepend — matching the narrowest lock the access pattern needs. -/
theorem claim_C8_lock_end_by_direction :
    actually_acquire_large_value true = (.rhs, .rwi_write) ∧
    actually_acquire_large_value false = (.lhs, .rwi_write) := by
  exact ⟨rfl, rfl⟩

/-- C9: the rassert in the small-to-small branch always holds for
well-formed inputs: if the new total fits within the inline threshold the
old value was small, so operate never aborts on that assertion — a
large-to-small transition is unreachable. -/
theorem claim_C9_no_large_to_small (mi mv s : Nat) (ov : btree_value)
    (hwf : value_wf mi s ov) (dp : data_provider_t) (ap : Bool) :
    (ov.value_size + dp.get_size ≤ mi → ov.is_large = false) ∧
    operate mi mv s (some ov) dp ap ≠ .assertFailed := by
  refine ⟨?_, operate_no_assert mi mv s ov hwf dp ap⟩
  intro h
  cases ov with
  | small _ => rfl
  | large olb =>
    exfalso
    have hbig := (hwf.2 rfl).1
    simp only [btree_value.value_size] at hbig h
    omega

theorem claim_C9_witness :
    value_wf 4 3 (.small [1]) ∧
    (((btree_value.small [1]).value_size +
        (data_provider_t.mk [2] none).get_size ≤ 4 →
      (btree_value.small [1]).is_large = false) ∧
    operate 4 100 3 (some (.small [1])) ⟨[2], none⟩ true ≠ .assertFailed) :=
  ⟨by decide, claim_C9_no_large_to_small 4 100 3 (.small [1]) (by decide)
    ⟨[2], none⟩ true⟩

/-- C10: the value-backed provider factory returns the large-value
provider exactly when the stored value is large; both variants declare a
size equal to the value's logical byte length; the small variant is built
from a copy of the value's bytes taken at construction and delivers
exactly that copy. -/
theorem claim_C10_value_provider_factory (v : btree_value) :
    ((value_data_provider_t.create v).is_large_provider = v.is_large) ∧
    ((value_data_provider_t.create v).get_size = v.value_size) ∧
    (∀ b, value_data_provider_t.create (.small b) = .smallP b) ∧
    (∀ b, small_value_as_buffers (value_data_provider_t.create (.small b))
      = [b]) := by
  refine ⟨?_, ?_, fun b => rfl, fun b => rfl⟩ <;> cases v <;> rfl
